import Mathlib

/-!
Verification development for the multi-track podcast recorder's core:
the RMS-windowed silence detector and cross-track dead-air intersection
(`src/renderer/lib/dead-air-remover.ts`), the per-track recorder and its
session-wide stop barrier (`src/renderer/lib/audio-recorder.ts`), the
WAV serializer (`audioBufferToWav`), the ffmpeg mixdown command builder
(`exportMix`), and the `export-mix` IPC handler.

Times, sample values and thresholds are JavaScript numbers in the source;
they are modelled as exact rationals (ℚ).  Byte buffers are `List ℕ`.
-/

/-! ### Interval algebra (`dead-air-remover.ts`)

`SilenceRegion { start: number; end: number }`.  The field `end` is a Lean
keyword, so it is called `stop` here. -/

structure Region where
  start : ℚ
  stop : ℚ
deriving DecidableEq, Repr

/-- Two-pointer sweep from `intersectRegions` (dead-air-remover.ts:116-134):
at each step take `start = max(a[ai].start, b[bi].start)`,
`end = min(a[ai].end, b[bi].end)`, emit when `start < end`, then advance
whichever current interval ends first (`a[ai].end < b[bi].end ? ai++ : bi++`). -/
def intersectRegions : List Region → List Region → List Region
  | [], _ => []
  | _ :: _, [] => []
  | a :: as, b :: bs =>
    let s := max a.start b.start
    let e := min a.stop b.stop
    let rest :=
      if a.stop < b.stop then intersectRegions as (b :: bs)
      else intersectRegions (a :: as) bs
    if s < e then ⟨s, e⟩ :: rest else rest
termination_by a b => a.length + b.length

/-- The spec's interval invariant: every interval satisfies `start < end`,
and the list is sorted with non-overlapping intervals
(each interval ends no later than the next one starts). -/
def IntervalInvariant (l : List Region) : Prop :=
  (∀ r ∈ l, r.start < r.stop) ∧ l.Chain' (fun x y => x.stop ≤ y.start)

/-- Strengthened invariant satisfied by `detectSilence` output: consecutive
silence regions are separated by at least one loud window, so each interval
ends strictly before the next one starts. -/
def SeparatedInvariant (l : List Region) : Prop :=
  (∀ r ∈ l, r.start < r.stop) ∧ l.Chain' (fun x y => x.stop < y.start)

/-! ### SilenceAnalyzer (`detectSilence`, dead-air-remover.ts:16-89) -/

/-- `AudioBuffer`: a decoded buffer with a sample rate and per-channel
sample data (Web Audio guarantees all channels have the same length). -/
structure AudioBuffer where
  sampleRate : ℕ
  channels : List (List ℚ)
deriving DecidableEq

def AudioBuffer.numberOfChannels (b : AudioBuffer) : ℕ := b.channels.length

def AudioBuffer.getChannelData (b : AudioBuffer) (i : ℕ) : List ℚ :=
  b.channels.getD i []

/-- `buffer.length`: sample frames per channel. -/
def AudioBuffer.frames (b : AudioBuffer) : ℕ := (b.getChannelData 0).length

/-- `buffer.duration = buffer.length / buffer.sampleRate`. -/
def AudioBuffer.duration (b : AudioBuffer) : ℚ :=
  (b.frames : ℚ) / (b.sampleRate : ℚ)

/-- Options of `detectSilence` with their JS defaults
(`silenceThreshold ?? 0.01`, `minSilenceDuration ?? 1.5`, `padding ?? 0.3`). -/
structure SilenceOptions where
  silenceThreshold : ℚ := 1/100
  minSilenceDuration : ℚ := 3/2
  padding : ℚ := 3/10
deriving DecidableEq

/-- `windowSize = Math.floor(sampleRate * 0.05)` (50 ms windows). -/
def windowSize (sampleRate : ℕ) : ℕ := sampleRate / 20

/-- `sumSquares` accumulated over one window. -/
def sumSquares (win : List ℚ) : ℚ := (win.map (fun s => s * s)).sum

/-- The JS test `Math.sqrt(sumSquares / n) < threshold` on a nonempty
window.  Since `sumSquares / n ≥ 0` and `Math.sqrt` is the monotone
nonnegative square root, the test is equivalent to
`0 < threshold ∧ sumSquares / n < threshold²`; that sqrt-free form is used
so the predicate stays decidable over ℚ (see `isQuietWindow_iff_sqrt`). -/
def isQuietWindow (win : List ℚ) (threshold : ℚ) : Bool :=
  decide (0 < threshold ∧ sumSquares win / (win.length : ℚ) < threshold * threshold)

/-- The window scan of `detectSilence` (dead-air-remover.ts:35-64).
`i` is the absolute index of the first sample of the remaining data `l`,
`ss` is the running `silenceStart` timestamp (`null` = `none`).
On each step the window is `l.take w` (JS slice `[i, min(i+w, len))`),
its start time `i / sampleRate`; a quiet window opens/continues a run, a
loud one closes it and emits `[silenceStart, timeSec)` when the run lasted
at least `minDuration`; at the end of the data a still-open run is emitted
with end time `len / sampleRate` under the same duration test.
A `windowSize` of zero makes the JS loop diverge (`i += 0`); that case
returns `[]` here and is outside every theorem's hypotheses. -/
def silenceLoop (rate w : ℕ) (threshold minDuration : ℚ) :
    ℕ → Option ℚ → List ℚ → List Region
  | i, ss, [] =>
    match ss with
    | none => []
    | some s =>
      if minDuration ≤ (i : ℚ) / (rate : ℚ) - s then [⟨s, (i : ℚ) / (rate : ℚ)⟩]
      else []
  | i, ss, x :: ls =>
    if _hw : w = 0 then []
    else
      let win := (x :: ls).take w
      let t : ℚ := (i : ℚ) / (rate : ℚ)
      if isQuietWindow win threshold then
        silenceLoop rate w threshold minDuration (i + win.length)
          (some (ss.getD t)) ((x :: ls).drop w)
      else
        (match ss with
         | none => []
         | some s => if minDuration ≤ t - s then [⟨s, t⟩] else []) ++
        silenceLoop rate w threshold minDuration (i + win.length) none
          ((x :: ls).drop w)
termination_by _ _ l => l.length
decreasing_by
  all_goals simp only [List.length_drop, List.length_cons]
  all_goals omega

/-- Keep-region construction of `detectSilence` (dead-air-remover.ts:71-85):
walk the silence regions with a cursor, keep `[cursor, keepEnd)` where
`keepEnd = min(silence.start + padding, silence.end)`, resume at
`keepStart = max(silence.end - padding, silence.start)`, and close with
`[cursor, totalDuration)` at the end. -/
def keepLoop (padding totalDuration : ℚ) : ℚ → List Region → List Region
  | cursor, [] => if cursor < totalDuration then [⟨cursor, totalDuration⟩] else []
  | cursor, silence :: rest =>
    let keepEnd := min (silence.start + padding) silence.stop
    let keepStart := max (silence.stop - padding) silence.start
    (if cursor < keepEnd then [⟨cursor, keepEnd⟩] else []) ++
    keepLoop padding totalDuration keepStart rest

structure SilenceResult where
  silenceRegions : List Region
  keepRegions : List Region
deriving DecidableEq

/-- `detectSilence` (dead-air-remover.ts:16-89): scan the first channel in
50 ms windows collecting silence regions, then derive the keep regions
(inverse of silence, padded). -/
def detectSilence (buffer : AudioBuffer) (options : SilenceOptions) : SilenceResult :=
  let silenceRegions :=
    silenceLoop buffer.sampleRate (windowSize buffer.sampleRate)
      options.silenceThreshold options.minSilenceDuration 0 none
      (buffer.getChannelData 0)
  let keepRegions :=
    if silenceRegions.isEmpty then [⟨0, buffer.duration⟩]
    else keepLoop options.padding buffer.duration 0 silenceRegions
  ⟨silenceRegions, keepRegions⟩

/-- `detectDeadAirAcrossTracks` (dead-air-remover.ts:95-114): per-buffer
silence regions, then the left-to-right intersection across all tracks.
Note the returned regions are the raw intersection: the `padding` option
only influences the (discarded) `keepRegions`. -/
def detectDeadAirAcrossTracks (buffers : List AudioBuffer)
    (options : SilenceOptions) : List Region :=
  match buffers.map (fun b => (detectSilence b options).silenceRegions) with
  | [] => []
  | first :: rest => rest.foldl intersectRegions first

/-! ### TrackRecorder (`audio-recorder.ts`)

A `TrackRecorder` wraps one `MediaRecorder`; a Blob is modelled as its
byte contents (`List ℕ`). -/

inductive MediaRecorderState where
  | inactive
  | recording
  | paused
deriving DecidableEq, Repr

structure TrackRecorder where
  peerId : String
  peerName : String
  recorderState : MediaRecorderState
  chunks : List (List ℕ)
deriving DecidableEq

/-- `createTrackRecorder(stream, peerId, peerName)` (audio-recorder.ts:8-23):
a fresh recorder with an empty chunk list (the external `MediaStream`
argument carries no recorded state and is not modelled). -/
def createTrackRecorder (peerId peerName : String) : TrackRecorder :=
  ⟨peerId, peerName, .inactive, []⟩

/-- The `ondataavailable` handler: `if (e.data.size > 0) chunks.push(e.data)`. -/
def ondataavailable (r : TrackRecorder) (data : List ℕ) : TrackRecorder :=
  if 0 < data.length then { r with chunks := r.chunks ++ [data] } else r

/-- Events acting on one recorder: the lifecycle calls plus an incremental
chunk delivery from the encoder. -/
inductive RecorderEvent where
  | start
  | pause
  | resume
  | stop
  | dataAvailable (data : List ℕ)
deriving DecidableEq

/-- Effect of one event on the wrapped `MediaRecorder` (its state and the
chunk list); chunks only change through `ondataavailable`. -/
def stepRecorder (r : TrackRecorder) : RecorderEvent → TrackRecorder
  | .start => { r with recorderState := .recording }
  | .pause => { r with recorderState := .paused }
  | .resume => { r with recorderState := .recording }
  | .stop => { r with recorderState := .inactive }
  | .dataAvailable d => ondataavailable r d

def runRecorder (r : TrackRecorder) (evs : List RecorderEvent) : TrackRecorder :=
  evs.foldl stepRecorder r

/-- The spec's per-track state machine (§4.1):
`Idle --start--> Recording --pause--> Paused --resume--> Recording`,
`stop` from `Recording` or `Paused`; chunk deliveries happen while
`Recording`; `Idle` and `Stopped` are terminal. -/
inductive SpecRecState where
  | idle
  | recording
  | pausedS
  | stopped
deriving DecidableEq

def specNext : SpecRecState → RecorderEvent → Option SpecRecState
  | .idle, .start => some .recording
  | .recording, .pause => some .pausedS
  | .pausedS, .resume => some .recording
  | .recording, .stop => some .stopped
  | .pausedS, .stop => some .stopped
  | .recording, .dataAvailable _ => some .recording
  | _, _ => none

/-- A transition sequence is valid when every event is legal from the state
reached so far. -/
def ValidTraceFrom : SpecRecState → List RecorderEvent → Bool
  | _, [] => true
  | s, e :: es =>
    match specNext s e with
    | some s' => ValidTraceFrom s' es
    | none => false

/-- The chunk payloads delivered in a trace, in arrival order. -/
def deliveredData (evs : List RecorderEvent) : List (List ℕ) :=
  evs.filterMap (fun e =>
    match e with
    | .dataAvailable d => some d
    | _ => none)

/-- `new Blob(r.chunks)`: concatenation of all buffered chunks in order
(audio-recorder.ts:60,68). -/
def finalizeBlob (r : TrackRecorder) : List ℕ := r.chunks.flatten

/-- One iteration of the loop in `stopRecording` (audio-recorder.ts:58-73)
for recorder `r`: when its `MediaRecorder` is not `inactive`, `stop()` is
invoked and the `onstop` handler finalizes the blob; otherwise the blob is
built directly from the current chunks and `stop()` is not called.
Returns (recorder afterwards, map entry, whether `stop()` was invoked). -/
def stopOne (r : TrackRecorder) : TrackRecorder × (String × List ℕ) × Bool :=
  if r.recorderState ≠ .inactive then
    ({ r with recorderState := .inactive }, (r.peerId, finalizeBlob r), true)
  else
    (r, (r.peerId, finalizeBlob r), false)

/-- `stopRecording(recorders)` (audio-recorder.ts:47-76), after the barrier
over all `onstop` completions has resolved: the recorders afterwards, the
resolved `results` mapping as its (peerId, blob) entries in iteration
order, and the ids of recorders on which `stop()` was invoked. -/
def stopRecording (recorders : List TrackRecorder) :
    List TrackRecorder × List (String × List ℕ) × List String :=
  (recorders.map (fun r => (stopOne r).1),
   recorders.map (fun r => (stopOne r).2.1),
   (recorders.filter (fun r => r.recorderState ≠ .inactive)).map
     (fun r => r.peerId))

/-! ### WAV serialization (`audioBufferToWav`, audio-recorder.ts:94-137) -/

/-- Little-endian bytes of a 16-bit unsigned value. -/
def u16le (n : ℕ) : List ℕ := [n % 256, n / 256 % 256]

/-- Little-endian bytes of a 32-bit unsigned value. -/
def u32le (n : ℕ) : List ℕ :=
  [n % 256, n / 256 % 256, n / 65536 % 256, n / 16777216 % 256]

/-- `DataView.setInt16(offset, v, true)`: the integer's two low bytes,
little-endian (two's complement). -/
def i16le (v : ℤ) : List ℕ := u16le (v % 65536).toNat

/-- JavaScript's ToInt16 first truncates the number toward zero. -/
def ratTruncToInt (q : ℚ) : ℤ := if q < 0 then -⌊-q⌋ else ⌊q⌋

/-- `Math.max(-1, Math.min(1, sample))`. -/
def clampSample (s : ℚ) : ℚ := max (-1) (min 1 s)

/-- The per-sample conversion: clamp to `[-1, 1]`, then
`sample < 0 ? sample * 0x8000 : sample * 0x7FFF`, truncated to an integer
by `setInt16`. -/
def sampleToInt16 (s : ℚ) : ℤ :=
  let c := clampSample s
  ratTruncToInt (if c < 0 then c * 32768 else c * 32767)

/-- `view.setUint8` over a string: its UTF-16 code units (ASCII here). -/
def asciiBytes (s : String) : List ℕ := s.toList.map Char.toNat

/-- A write of `bytes` into byte array `mem` at `offset`
(the `DataView` store operations). -/
def storeBytes (mem : List ℕ) (offset : ℕ) (bytes : List ℕ) : List ℕ :=
  mem.take offset ++ bytes ++ mem.drop (offset + bytes.length)

/-- Sequential writes with a running offset, exactly as `audioBufferToWav`
advances `offset` by the size of each value it stores. -/
def runWrites (mem : List ℕ) (offset : ℕ) : List (List ℕ) → List ℕ
  | [] => mem
  | bs :: rest => runWrites (storeBytes mem offset bs) (offset + bs.length) rest

/-- The 14 header stores of `audioBufferToWav` (audio-recorder.ts:112-126)
in program order, for a buffer with `byteLength = length*channels*2 + 44`. -/
def wavHeaderWrites (numChannels sampleRate byteLength : ℕ) : List (List ℕ) :=
  [asciiBytes "RIFF", u32le (byteLength - 8), asciiBytes "WAVE",
   asciiBytes "fmt ", u32le 16, u16le 1, u16le numChannels, u32le sampleRate,
   u32le (sampleRate * 2 * numChannels), u16le (numChannels * 2), u16le 16,
   asciiBytes "data", u32le (byteLength - 44)]

/-- The nested sample loop (audio-recorder.ts:132-136): for each frame `i`,
for each channel `ch`, one 16-bit store of the converted sample. -/
def wavSampleWrites (buffer : AudioBuffer) : List (List ℕ) :=
  (List.range buffer.frames).flatMap (fun i =>
    (List.range buffer.numberOfChannels).map (fun ch =>
      i16le (sampleToInt16 ((buffer.getChannelData ch).getD i 0))))

/-- `audioBufferToWav(buffer)`: allocate `length*channels*2 + 44` zero bytes
and perform all stores sequentially from offset 0. -/
def audioBufferToWav (buffer : AudioBuffer) : List ℕ :=
  let byteLength := buffer.frames * buffer.numberOfChannels * 2 + 44
  runWrites (List.replicate byteLength 0) 0
    (wavHeaderWrites buffer.numberOfChannels buffer.sampleRate byteLength ++
     wavSampleWrites buffer)

/-- Modelled from the spec: the WAV byte layout of §6 — RIFF header, `fmt `
subchunk declaring PCM (format tag 1), the buffer's sample rate, 16 bits
per sample and the channel count, then a `data` subchunk of interleaved
little-endian 16-bit samples clamped from `[-1, 1]`. -/
def wavSpecLayout (buffer : AudioBuffer) : List ℕ :=
  let numChannels := buffer.numberOfChannels
  let dataSize := buffer.frames * numChannels * 2
  asciiBytes "RIFF" ++ u32le (36 + dataSize) ++ asciiBytes "WAVE" ++
  asciiBytes "fmt " ++ u32le 16 ++ u16le 1 ++ u16le numChannels ++
  u32le buffer.sampleRate ++ u32le (buffer.sampleRate * 2 * numChannels) ++
  u16le (numChannels * 2) ++ u16le 16 ++
  asciiBytes "data" ++ u32le dataSize ++
  (List.range buffer.frames).flatMap (fun i =>
    (List.range numChannels).flatMap (fun ch =>
      i16le (sampleToInt16 ((buffer.getChannelData ch).getD i 0))))

/-! ### Exporter (`exportMix`, main-process ffmpeg module) -/

inductive AudioFormat where
  | mp3
  | m4a
  | wav
deriving DecidableEq, Repr

structure ExportOptions where
  inputFiles : List String
  outputPath : String
  format : AudioFormat
deriving DecidableEq

/-- The fluent-ffmpeg command as the sequence of builder calls `exportMix`
makes on it. -/
structure FfmpegCommand where
  inputs : List String
  complexFilters : List String
  outputOptions : List String
  audioCodecName : Option String
  audioBitrateName : Option String
  audioChannelCount : Option ℕ
  audioFrequencyHz : Option ℕ
  outputFile : Option String
deriving DecidableEq

def FfmpegCommand.empty : FfmpegCommand := ⟨[], [], [], none, none, none, none, none⟩

def FfmpegCommand.input (c : FfmpegCommand) (f : String) : FfmpegCommand :=
  { c with inputs := c.inputs ++ [f] }

def FfmpegCommand.complexFilter (c : FfmpegCommand) (fs : List String) : FfmpegCommand :=
  { c with complexFilters := c.complexFilters ++ fs }

def FfmpegCommand.addOutputOptions (c : FfmpegCommand) (os : List String) : FfmpegCommand :=
  { c with outputOptions := c.outputOptions ++ os }

def FfmpegCommand.audioCodec (c : FfmpegCommand) (s : String) : FfmpegCommand :=
  { c with audioCodecName := some s }

def FfmpegCommand.audioBitrate (c : FfmpegCommand) (s : String) : FfmpegCommand :=
  { c with audioBitrateName := some s }

def FfmpegCommand.audioChannels (c : FfmpegCommand) (n : ℕ) : FfmpegCommand :=
  { c with audioChannelCount := some n }

def FfmpegCommand.audioFrequency (c : FfmpegCommand) (n : ℕ) : FfmpegCommand :=
  { c with audioFrequencyHz := some n }

def FfmpegCommand.output (c : FfmpegCommand) (f : String) : FfmpegCommand :=
  { c with outputFile := some f }

/-- `inputFiles.map((_, i) => `[${i}:a]`).join('') + `amerge=inputs=${n}[aout]``. -/
def amergeFilter (n : ℕ) : String :=
  String.join ((List.range n).map (fun i => "[" ++ toString i ++ ":a]")) ++
    "amerge=inputs=" ++ toString n ++ "[aout]"

/-- `exportMix(options)`: reject with `'No input files'` on an empty input
list before any command is built; otherwise add every input, add the
amerge complex filter and `-map [aout]` when there is more than one input,
apply the per-format encoding options, set the output path, and run.
The returned value models the promise: the command handed to ffmpeg on
success, the rejection message otherwise. -/
def exportMix (options : ExportOptions) : Except String FfmpegCommand :=
  if options.inputFiles.length = 0 then .error "No input files"
  else
    let c0 := options.inputFiles.foldl FfmpegCommand.input FfmpegCommand.empty
    let c1 :=
      if 1 < options.inputFiles.length then
        (c0.complexFilter [amergeFilter options.inputFiles.length]).addOutputOptions
          ["-map", "[aout]"]
      else c0
    let c2 :=
      match options.format with
      | .mp3 => (((c1.audioCodec "libmp3lame").audioBitrate "192k").audioChannels 2).audioFrequency 44100
      | .m4a => (((c1.audioCodec "aac").audioBitrate "192k").audioChannels 2).audioFrequency 44100
      | .wav => ((c1.audioCodec "pcm_s16le").audioChannels 2).audioFrequency 44100
    .ok (c2.output options.outputPath)

/-- Modelled from the spec (§4.5): the command the Exporter must build —
all inputs in order, an amerge-style combination exactly when there are
several inputs, and the fixed per-format parameter table
(mp3 → MP3 at 192 kbps, m4a → AAC at 192 kbps, wav → 16-bit PCM,
all 2 channels at 44100 Hz). -/
def specExportCommand (options : ExportOptions) : FfmpegCommand :=
  { inputs := options.inputFiles
    complexFilters :=
      if 1 < options.inputFiles.length then [amergeFilter options.inputFiles.length]
      else []
    outputOptions :=
      if 1 < options.inputFiles.length then ["-map", "[aout]"] else []
    audioCodecName :=
      some (match options.format with
            | .mp3 => "libmp3lame"
            | .m4a => "aac"
            | .wav => "pcm_s16le")
    audioBitrateName :=
      match options.format with
      | .mp3 => some "192k"
      | .m4a => some "192k"
      | .wav => none
    audioChannelCount := some 2
    audioFrequencyHz := some 44100
    outputFile := some options.outputPath }

/-! ### `export-mix` IPC handler (`registerIpcHandlers`, main process) -/

/-- Node's `path.extname` (external library, modelled from its documented
behavior): the part of the basename from its last `.` onward, or `''`
when the basename has no `.` past its first character. -/
def extname (p : String) : String :=
  let b := (p.toList.reverse.takeWhile (fun c => c ≠ '/')).reverse
  if ('.' : Char) ∈ b then
    let lastDot := b.length - 1 - b.reverse.indexOf '.'
    if 0 < lastDot then String.mk (b.drop lastDot) else ""
  else ""

/-- The format selection of the `export-mix` handler:
`const ext = path.extname(outputPath).slice(1)` and
`ext === 'mp3' || ext === 'm4a' || ext === 'wav' ? ext : 'mp3'`. -/
def exportMixHandlerOptions (inputFiles : List String) (outputPath : String) :
    ExportOptions :=
  let ext := (extname outputPath).drop 1
  { inputFiles := inputFiles
    outputPath := outputPath
    format :=
      if ext = "mp3" then .mp3
      else if ext = "m4a" then .m4a
      else if ext = "wav" then .wav
      else .mp3 }

/-- The `export-mix` handler body: build the options and call `exportMix`. -/
def exportMixHandler (inputFiles : List String) (outputPath : String) :
    Except String FfmpegCommand :=
  exportMix (exportMixHandlerOptions inputFiles outputPath)

/-! ### Helper lemmas: recorder -/

lemma stopOne_fst_recorderState (r : TrackRecorder) :
    (stopOne r).1.recorderState = .inactive := by
  unfold stopOne
  split
  · rfl
  · next h => simpa using h

lemma stopOne_result_entry (r : TrackRecorder) :
    (stopOne r).2.1 = (r.peerId, finalizeBlob r) := by
  unfold stopOne
  split <;> rfl

lemma stopOne_fst_peerId (r : TrackRecorder) : (stopOne r).1.peerId = r.peerId := by
  unfold stopOne
  split <;> rfl

lemma stopOne_fst_chunks (r : TrackRecorder) : (stopOne r).1.chunks = r.chunks := by
  unfold stopOne
  split <;> rfl

lemma stopOne_of_inactive (r : TrackRecorder) (h : r.recorderState = .inactive) :
    stopOne r = (r, (r.peerId, finalizeBlob r), false) := by
  unfold stopOne
  simp [h]

lemma runRecorder_chunks (evs : List RecorderEvent) (r : TrackRecorder) :
    (runRecorder r evs).chunks =
      r.chunks ++ (deliveredData evs).filter (fun d => 0 < d.length) := by
  induction evs generalizing r with
  | nil => simp [runRecorder, deliveredData]
  | cons e es ih =>
    cases e with
    | dataAvailable d =>
      by_cases hd : 0 < d.length
      · simp [runRecorder, deliveredData, stepRecorder, ondataavailable, hd] at ih ⊢
        rw [ih]
        simp
      · simp [runRecorder, deliveredData, stepRecorder, ondataavailable, hd] at ih ⊢
        rw [ih]
    | start => simpa [runRecorder, deliveredData, stepRecorder] using ih _
    | pause => simpa [runRecorder, deliveredData, stepRecorder] using ih _
    | resume => simpa [runRecorder, deliveredData, stepRecorder] using ih _
    | stop => simpa [runRecorder, deliveredData, stepRecorder] using ih _

lemma flatten_filter_pos (ds : List (List ℕ)) :
    (ds.filter (fun d => 0 < d.length)).flatten = ds.flatten := by
  induction ds with
  | nil => rfl
  | cons d rest ih =>
    by_cases hd : 0 < d.length
    · simp [hd, ih]
    · have : d = [] := by
        cases d
        · rfl
        · simp at hd
      simp [this, ih]

/-! ### Claim theorems: recorder -/

/-- C5: for every valid TrackRecorder transition sequence ending in `stop`,
the finalized buffer is the concatenation of all delivered chunks in
arrival order, and its byte length is the sum of the delivered chunks'
byte lengths — no chunk's bytes are lost or duplicated. -/
theorem trackRecorder_finalized_buffer (peerId peerName : String)
    (evs : List RecorderEvent)
    (hvalid : ValidTraceFrom .idle evs = true)
    (hstop : evs.getLast? = some .stop) :
    finalizeBlob (runRecorder (createTrackRecorder peerId peerName) evs) =
      (deliveredData evs).flatten ∧
    (finalizeBlob (runRecorder (createTrackRecorder peerId peerName) evs)).length =
      ((deliveredData evs).map List.length).sum := by
  have h1 : finalizeBlob (runRecorder (createTrackRecorder peerId peerName) evs) =
      (deliveredData evs).flatten := by
    simp [finalizeBlob, runRecorder_chunks, createTrackRecorder, flatten_filter_pos]
  refine ⟨h1, ?_⟩
  rw [h1, List.length_flatten]

/-- C5 witness: a concrete valid trace `start, two deliveries, pause,
resume, stop` on which the theorem applies. -/
theorem trackRecorder_finalized_buffer_witness :
    ValidTraceFrom .idle
        [.start, .dataAvailable [7, 8], .pause, .resume, .dataAvailable [9], .stop] = true ∧
    ([RecorderEvent.start, .dataAvailable [7, 8], .pause, .resume, .dataAvailable [9],
        .stop] : List RecorderEvent).getLast? = some .stop ∧
    finalizeBlob (runRecorder (createTrackRecorder "p1" "Alice")
        [.start, .dataAvailable [7, 8], .pause, .resume, .dataAvailable [9], .stop]) =
      [7, 8, 9] :=
  ⟨by decide, by decide, by
    have h := trackRecorder_finalized_buffer "p1" "Alice"
      [.start, .dataAvailable [7, 8], .pause, .resume, .dataAvailable [9], .stop]
      (by decide) (by decide)
    rw [h.1]
    decide⟩

/-- C3: `stopRecording` is idempotent — run once on any recorder list and
then again on the resulting recorders, the second call returns the same
(peerId, finalized bytes) mapping, invokes `stop()` on no recorder (all of
them are already inactive), and leaves every recorder unchanged. -/
theorem stopRecording_idempotent (recorders : List TrackRecorder) :
    (stopRecording (stopRecording recorders).1).2.1 = (stopRecording recorders).2.1 ∧
    (stopRecording (stopRecording recorders).1).2.2 = [] ∧
    (stopRecording (stopRecording recorders).1).1 = (stopRecording recorders).1 := by
  refine ⟨?_, ?_, ?_⟩
  · simp only [stopRecording, List.map_map]
    refine List.map_congr_left (fun r _ => ?_)
    simp only [Function.comp_apply,
      stopOne_of_inactive _ (stopOne_fst_recorderState r)]
    rw [stopOne_result_entry]
    simp [finalizeBlob, stopOne_fst_peerId, stopOne_fst_chunks]
  · simp only [stopRecording]
    have : (List.map (fun r => (stopOne r).1) recorders).filter
        (fun r => r.recorderState ≠ .inactive) = [] := by
      rw [List.filter_eq_nil_iff]
      intro r hr
      rcases List.mem_map.mp hr with ⟨r0, _, rfl⟩
      simp [stopOne_fst_recorderState]
    rw [this]
    rfl
  · simp only [stopRecording, List.map_map]
    refine List.map_congr_left (fun r _ => ?_)
    simp [Function.comp_apply, stopOne_of_inactive _ (stopOne_fst_recorderState r)]

/-! ### Helper lemmas: exporter -/

lemma foldl_ffmpeg_input (files : List String) (c : FfmpegCommand) :
    files.foldl FfmpegCommand.input c = { c with inputs := c.inputs ++ files } := by
  induction files generalizing c with
  | nil => simp
  | cons f fs ih => simp [FfmpegCommand.input, ih]

/-! ### Claim theorems: exporter and IPC handler -/

/-- C6: `exportMix` fails fast with the `'No input files'` rejection on an
empty input list — no command is built or run — and for every non-empty
input list the error branch is not taken. -/
theorem exportMix_empty_input (options : ExportOptions) :
    (options.inputFiles = [] → exportMix options = .error "No input files") ∧
    (options.inputFiles ≠ [] → ∃ c, exportMix options = .ok c) := by
  constructor
  · intro h
    simp [exportMix, h]
  · intro h
    unfold exportMix
    rw [if_neg (by simpa using h)]
    exact ⟨_, rfl⟩

/-- C6 witness: the theorem applied to a zero-input job and to a one-input
job. -/
theorem exportMix_empty_input_witness :
    exportMix ⟨[], "out.mp3", .mp3⟩ = .error "No input files" ∧
    ∃ c, exportMix ⟨["a.wav"], "out.mp3", .mp3⟩ = .ok c :=
  ⟨(exportMix_empty_input ⟨[], "out.mp3", .mp3⟩).1 rfl,
   (exportMix_empty_input ⟨["a.wav"], "out.mp3", .mp3⟩).2 (by simp)⟩

/-- C7: on every non-empty job, `exportMix` hands ffmpeg exactly the
command described by the spec table: all inputs in order; a single input
stays the sole audio source with no merge filter; several inputs are
combined through one `amerge` filter over all of them mapped to `[aout]`;
mp3 → libmp3lame at 192 kbps, m4a → aac at 192 kbps, wav → pcm_s16le,
each with 2 channels at 44100 Hz. -/
theorem exportMix_command (options : ExportOptions)
    (h : options.inputFiles ≠ []) :
    exportMix options = .ok (specExportCommand options) := by
  rcases options with ⟨files, out, fmt⟩
  rw [exportMix, if_neg (by simpa using h)]
  by_cases h1 : 1 < files.length <;>
    cases fmt <;>
      simp [specExportCommand, foldl_ffmpeg_input, FfmpegCommand.empty,
        FfmpegCommand.complexFilter, FfmpegCommand.addOutputOptions,
        FfmpegCommand.audioCodec, FfmpegCommand.audioBitrate,
        FfmpegCommand.audioChannels, FfmpegCommand.audioFrequency,
        FfmpegCommand.output, h1]

/-- C7 witness: Scenario C — `["a.wav", "b.wav"]` to mp3 merges both
inputs with `amerge=inputs=2` and encodes at 192 kbps, 2 ch, 44100 Hz. -/
theorem exportMix_command_witness :
    exportMix ⟨["a.wav", "b.wav"], "mix.mp3", .mp3⟩ =
      .ok (specExportCommand ⟨["a.wav", "b.wav"], "mix.mp3", .mp3⟩) ∧
    specExportCommand ⟨["a.wav", "b.wav"], "mix.mp3", .mp3⟩ =
      ⟨["a.wav", "b.wav"], ["[0:a][1:a]amerge=inputs=2[aout]"], ["-map", "[aout]"],
       some "libmp3lame", some "192k", some 2, some 44100, some "mix.mp3"⟩ :=
  ⟨exportMix_command ⟨["a.wav", "b.wav"], "mix.mp3", .mp3⟩ (by simp), by rfl⟩

/-- C10: for every `outputPath` whose extension is not mp3, m4a or wav,
the `export-mix` IPC handler does not fail: it silently substitutes the
mp3 format, so the export runs as an MP3 encode. -/
theorem exportMixHandler_unknown_extension (inputFiles : List String)
    (outputPath : String)
    (h : (extname outputPath).drop 1 ∉ (["mp3", "m4a", "wav"] : List String)) :
    (exportMixHandlerOptions inputFiles outputPath).format = .mp3 ∧
    exportMixHandler inputFiles outputPath =
      exportMix ⟨inputFiles, outputPath, .mp3⟩ := by
  simp only [List.mem_cons, List.mem_singleton, not_or] at h
  have hf : (exportMixHandlerOptions inputFiles outputPath).format = .mp3 := by
    simp [exportMixHandlerOptions, h.1, h.2.1, h.2.2]
  refine ⟨hf, ?_⟩
  rw [exportMixHandler]
  congr 1
  simp [exportMixHandlerOptions, h.1, h.2.1, h.2.2]

/-- C10 witness: an export to `mix.ogg` — extension `ogg` is unrecognized
and the handler encodes as MP3. -/
theorem exportMixHandler_unknown_extension_witness :
    (extname "mix.ogg").drop 1 ∉ (["mp3", "m4a", "wav"] : List String) ∧
    (exportMixHandlerOptions ["a.wav"] "mix.ogg").format = .mp3 :=
  ⟨by decide, (exportMixHandler_unknown_extension ["a.wav"] "mix.ogg" (by decide)).1⟩

/-! ### Claim C1: the dead-air plan is not padded -/

/-- C1 (failing input): one track at 20 Hz, samples `1,0,0,0,0,1`, so the
silence report is `[0.05, 0.25)`; with `padding = 0.3` the padded range
`[s + padding, e - padding)` is inverted (the region's length `0.2` is
below `2 × padding = 0.6`), so the claimed plan is empty — yet
`detectDeadAirAcrossTracks` returns the raw unpadded intersection
`[0.05, 0.25)`: the `padding` option never touches the returned plan. -/
theorem detectDeadAir_returns_unpadded_plan :
    detectDeadAirAcrossTracks [⟨20, [[1, 0, 0, 0, 0, 1]]⟩]
        ⟨1/100, 1/10, 3/10⟩ = [⟨1/20, 1/4⟩] ∧
    (1/4 : ℚ) - 1/20 < 2 * (3/10) ∧
    (1/4 : ℚ) - 3/10 ≤ 1/20 + 3/10 := by
  refine ⟨?_, by norm_num, by norm_num⟩
  norm_num [detectDeadAirAcrossTracks, detectSilence, AudioBuffer.getChannelData,
    windowSize, silenceLoop, isQuietWindow, sumSquares]

/-! ### WAV layout (C9) -/

lemma storeBytes_at_frontier (pre bytes : List ℕ) (k : ℕ) :
    storeBytes (pre ++ List.replicate k 0) pre.length bytes =
      (pre ++ bytes) ++ List.replicate (k - bytes.length) 0 := by
  unfold storeBytes
  rw [List.take_left, List.drop_append bytes.length, List.drop_replicate,
    List.append_assoc]

lemma runWrites_from_frontier (ws : List (List ℕ)) :
    ∀ (pre : List ℕ) (k : ℕ),
      runWrites (pre ++ List.replicate k 0) pre.length ws =
        pre ++ ws.flatten ++ List.replicate (k - (ws.map List.length).sum) 0 := by
  induction ws with
  | nil => intro pre k; simp [runWrites]
  | cons bs rest ih =>
    intro pre k
    rw [runWrites, storeBytes_at_frontier]
    have hoff : pre.length + bs.length = (pre ++ bs).length := by simp
    rw [hoff, ih (pre ++ bs) (k - bs.length)]
    have hsub : k - bs.length - ((rest.map List.length).sum) =
        k - ((bs :: rest).map List.length).sum := by
      simp only [List.map_cons, List.sum_cons]
      omega
    simp [hsub, List.append_assoc]

lemma flatten_of_flatMap {α : Type} (l : List α) (f : α → List (List ℕ)) :
    (l.flatMap f).flatten = l.flatMap (fun x => (f x).flatten) := by
  induction l with
  | nil => rfl
  | cons x xs ih => simp [List.flatMap_cons, ih]

lemma flatten_wavSampleWrites (buffer : AudioBuffer) :
    (wavSampleWrites buffer).flatten =
      (List.range buffer.frames).flatMap (fun i =>
        (List.range buffer.numberOfChannels).flatMap (fun ch =>
          i16le (sampleToInt16 ((buffer.getChannelData ch).getD i 0)))) := by
  unfold wavSampleWrites
  rw [flatten_of_flatMap]
  rfl

lemma sum_map_const_nat (n c : ℕ) :
    ((List.range n).map (fun _ => c)).sum = n * c := by
  induction n with
  | zero => simp
  | succ m ih =>
    rw [List.range_succ]
    simp [ih]
    ring

lemma wavSampleWrites_total (buffer : AudioBuffer) :
    ((wavSampleWrites buffer).map List.length).sum =
      buffer.frames * (buffer.numberOfChannels * 2) := by
  rw [← List.length_flatten, flatten_wavSampleWrites, List.length_flatMap]
  have hinner : ∀ i : ℕ,
      ((List.range buffer.numberOfChannels).flatMap (fun ch =>
        i16le (sampleToInt16 ((buffer.getChannelData ch).getD i 0)))).length =
        buffer.numberOfChannels * 2 := by
    intro i
    rw [List.length_flatMap]
    have : (List.map (List.length ∘ fun ch =>
        i16le (sampleToInt16 ((buffer.getChannelData ch).getD i 0)))
          (List.range buffer.numberOfChannels)) =
        (List.range buffer.numberOfChannels).map (fun _ => (2 : ℕ)) := by
      refine List.map_congr_left (fun ch _ => ?_)
      rfl
    rw [this, sum_map_const_nat]
  have : List.map (List.length ∘ fun i =>
      (List.range buffer.numberOfChannels).flatMap (fun ch =>
        i16le (sampleToInt16 ((buffer.getChannelData ch).getD i 0))))
        (List.range buffer.frames) =
      (List.range buffer.frames).map (fun _ => buffer.numberOfChannels * 2) := by
    refine List.map_congr_left (fun i _ => ?_)
    simpa using hinner i
  rw [this, sum_map_const_nat]

/-- C9: the bytes produced by `audioBufferToWav` follow the specified WAV
layout exactly — `RIFF`/`WAVE` header, `fmt ` subchunk declaring PCM
(format tag 1), the buffer's sample rate, 16 bits per sample and the
channel count, then a `data` subchunk of the interleaved little-endian
16-bit samples, each clamped to `[-1, 1]` before scaling. -/
theorem audioBufferToWav_layout (buffer : AudioBuffer) :
    audioBufferToWav buffer = wavSpecLayout buffer := by
  unfold audioBufferToWav
  have h := runWrites_from_frontier
      (wavHeaderWrites buffer.numberOfChannels buffer.sampleRate
        (buffer.frames * buffer.numberOfChannels * 2 + 44) ++ wavSampleWrites buffer)
      [] (buffer.frames * buffer.numberOfChannels * 2 + 44)
  simp only [List.nil_append, List.length_nil] at h
  rw [h]
  have hsum : (((wavHeaderWrites buffer.numberOfChannels buffer.sampleRate
      (buffer.frames * buffer.numberOfChannels * 2 + 44) ++
        wavSampleWrites buffer)).map List.length).sum =
      44 + buffer.frames * (buffer.numberOfChannels * 2) := by
    rw [List.map_append, List.sum_append, wavSampleWrites_total]
    have : ((wavHeaderWrites buffer.numberOfChannels buffer.sampleRate
        (buffer.frames * buffer.numberOfChannels * 2 + 44)).map List.length).sum = 44 := by
      simp [wavHeaderWrites, asciiBytes, u16le, u32le]
    omega
  rw [hsum]
  have hz : buffer.frames * buffer.numberOfChannels * 2 + 44 -
      (44 + buffer.frames * (buffer.numberOfChannels * 2)) = 0 := by
    have : buffer.frames * buffer.numberOfChannels * 2 =
        buffer.frames * (buffer.numberOfChannels * 2) := by ring
    omega
  rw [hz, List.replicate_zero, List.append_nil, List.flatten_append,
    flatten_wavSampleWrites]
  unfold wavSpecLayout wavHeaderWrites
  have e1 : buffer.frames * buffer.numberOfChannels * 2 + 44 - 8 =
      36 + buffer.frames * buffer.numberOfChannels * 2 := by omega
  have e2 : buffer.frames * buffer.numberOfChannels * 2 + 44 - 44 =
      buffer.frames * buffer.numberOfChannels * 2 := by omega
  simp [e1, e2, List.append_assoc]

lemma region_lt_of_invariant_tail {a : Region} {l : List Region}
    (hlt : ∀ r ∈ a :: l, r.start < r.stop)
    (hc : (a :: l).Chain' (fun x y => x.stop ≤ y.start)) :
    ∀ x ∈ l, a.stop ≤ x.start := by
  induction l generalizing a with
  | nil => intro x hx; simp at hx
  | cons h t ih =>
    rw [List.chain'_cons] at hc
    intro x hx
    rcases List.mem_cons.mp hx with rfl | hx'
    · exact hc.1
    · have hh := ih (fun r hr => hlt r (List.mem_of_mem_tail hr)) hc.2 x hx'
      have : a.stop ≤ h.start := hc.1
      have h2 : h.start < h.stop := hlt h (by simp)
      linarith

lemma region_lt_of_separated_tail {a : Region} {l : List Region}
    (hlt : ∀ r ∈ a :: l, r.start < r.stop)
    (hc : (a :: l).Chain' (fun x y => x.stop < y.start)) :
    ∀ x ∈ l, a.stop < x.start := by
  induction l generalizing a with
  | nil => intro x hx; simp at hx
  | cons h t ih =>
    rw [List.chain'_cons] at hc
    intro x hx
    rcases List.mem_cons.mp hx with rfl | hx'
    · exact hc.1
    · have hh := ih (fun r hr => hlt r (List.mem_of_mem_tail hr)) hc.2 x hx'
      have : a.stop < h.start := hc.1
      have h2 : h.start < h.stop := hlt h (by simp)
      linarith

lemma intersect_skip_fst {a y : Region} (as bs : List Region)
    (hy : y.start < y.stop) (hab : a.stop ≤ y.start) :
    intersectRegions (a :: as) (y :: bs) = intersectRegions as (y :: bs) := by
  rw [intersectRegions]
  have h1 : ¬ (max a.start y.start < min a.stop y.stop) := by
    simp only [not_lt]
    calc min a.stop y.stop ≤ a.stop := min_le_left _ _
      _ ≤ y.start := hab
      _ ≤ max a.start y.start := le_max_right _ _
  have h2 : a.stop < y.stop := lt_of_le_of_lt hab hy
  simp only [if_neg h1, if_pos h2]

lemma intersect_skip_snd {x b : Region} (as bs : List Region)
    (hx : x.start < x.stop) (hba : b.stop ≤ x.start) :
    intersectRegions (x :: as) (b :: bs) = intersectRegions (x :: as) bs := by
  rw [intersectRegions]
  have h1 : ¬ (max x.start b.start < min x.stop b.stop) := by
    simp only [not_lt]
    calc min x.stop b.stop ≤ b.stop := min_le_right _ _
      _ ≤ x.start := hba
      _ ≤ max x.start b.start := le_max_left _ _
  have h2 : ¬ (x.stop < b.stop) := by
    simp only [not_lt]
    calc b.stop ≤ x.start := hba
      _ ≤ x.stop := le_of_lt hx
  simp only [if_neg h1, if_neg h2]

lemma intersect_mem_bound : ∀ (a b : List Region) (r : Region), r ∈ intersectRegions a b →
    r.start < r.stop ∧
    ∃ x ∈ a, ∃ y ∈ b, r.start = max x.start y.start ∧ r.stop = min x.stop y.stop := by
  intro a b
  induction a, b using intersectRegions.induct with
  | case1 x => intro r hr; simp [intersectRegions] at hr
  | case2 h t => intro r hr; simp [intersectRegions] at hr
  | case3 a as b bs s e hse ih1 ih2 =>
    intro r hr
    rw [intersectRegions] at hr
    rw [if_pos hse] at hr
    rcases List.mem_cons.mp hr with rfl | hrest
    · exact ⟨hse, a, by simp, b, by simp, rfl, rfl⟩
    · split at hrest
      · obtain ⟨hlt, x, hx, y, hy, hs, he⟩ := ih1 r hrest
        exact ⟨hlt, x, List.mem_cons_of_mem _ hx, y, hy, hs, he⟩
      · obtain ⟨hlt, x, hx, y, hy, hs, he⟩ := ih2 r hrest
        exact ⟨hlt, x, hx, y, List.mem_cons_of_mem _ hy, hs, he⟩
  | case4 a as b bs s e hse ih1 ih2 =>
    intro r hr
    rw [intersectRegions] at hr
    rw [if_neg hse] at hr
    split at hr
    · obtain ⟨hlt, x, hx, y, hy, hs, he⟩ := ih1 r hr
      exact ⟨hlt, x, List.mem_cons_of_mem _ hx, y, hy, hs, he⟩
    · obtain ⟨hlt, x, hx, y, hy, hs, he⟩ := ih2 r hr
      exact ⟨hlt, x, hx, y, List.mem_cons_of_mem _ hy, hs, he⟩

lemma IntervalInvariant.ofCons {r : Region} {l : List Region}
    (h : IntervalInvariant (r :: l)) : IntervalInvariant l :=
  ⟨fun x hx => h.1 x (List.mem_cons_of_mem _ hx), (List.chain'_cons'.mp h.2).2⟩

lemma SeparatedInvariant.consTail {r : Region} {l : List Region}
    (h : SeparatedInvariant (r :: l)) : SeparatedInvariant l :=
  ⟨fun x hx => h.1 x (List.mem_cons_of_mem _ hx), (List.chain'_cons'.mp h.2).2⟩

lemma intersect_invariant : ∀ (a b : List Region),
    IntervalInvariant a → IntervalInvariant b →
    IntervalInvariant (intersectRegions a b) := by
  intro a b
  induction a, b using intersectRegions.induct with
  | case1 x => intro _ _; simp [intersectRegions, IntervalInvariant]
  | case2 h t => intro _ _; simp [intersectRegions, IntervalInvariant]
  | case3 a as b bs s e hse ih1 ih2 =>
    intro ha hb
    have hmem : ∀ r ∈ intersectRegions (a :: as) (b :: bs), r.start < r.stop :=
      fun r hr => (intersect_mem_bound _ _ r hr).1
    refine ⟨hmem, ?_⟩
    rw [intersectRegions, if_pos hse]
    have hrest : ∀ r ∈ (if a.stop < b.stop then intersectRegions as (b :: bs)
        else intersectRegions (a :: as) bs), min a.stop b.stop ≤ r.start := by
      intro r hr
      split at hr
      · obtain ⟨-, x, hx, y, hy, hs, -⟩ := intersect_mem_bound _ _ r hr
        have : a.stop ≤ x.start := region_lt_of_invariant_tail ha.1 ha.2 x hx
        calc min a.stop b.stop ≤ a.stop := min_le_left _ _
          _ ≤ x.start := this
          _ ≤ max x.start y.start := le_max_left _ _
          _ = r.start := hs.symm
      · obtain ⟨-, x, hx, y, hy, hs, -⟩ := intersect_mem_bound _ _ r hr
        have : b.stop ≤ y.start := region_lt_of_invariant_tail hb.1 hb.2 y hy
        calc min a.stop b.stop ≤ b.stop := min_le_right _ _
          _ ≤ y.start := this
          _ ≤ max x.start y.start := le_max_right _ _
          _ = r.start := hs.symm
    rw [List.chain'_cons']
    constructor
    · intro y hy
      exact hrest y (List.mem_of_mem_head? hy)
    · split
      · exact (ih1 ha.ofCons hb).2
      · exact (ih2 ha hb.ofCons).2
  | case4 a as b bs s e hse ih1 ih2 =>
    intro ha hb
    have hmem : ∀ r ∈ intersectRegions (a :: as) (b :: bs), r.start < r.stop :=
      fun r hr => (intersect_mem_bound _ _ r hr).1
    refine ⟨hmem, ?_⟩
    rw [intersectRegions, if_neg hse]
    split
    · exact (ih1 ha.ofCons hb).2
    · exact (ih2 ha hb.ofCons).2

lemma intersect_separated : ∀ (a b : List Region),
    SeparatedInvariant a → SeparatedInvariant b →
    SeparatedInvariant (intersectRegions a b) := by
  intro a b
  induction a, b using intersectRegions.induct with
  | case1 x => intro _ _; simp [intersectRegions, SeparatedInvariant]
  | case2 h t => intro _ _; simp [intersectRegions, SeparatedInvariant]
  | case3 a as b bs s e hse ih1 ih2 =>
    intro ha hb
    have hmem : ∀ r ∈ intersectRegions (a :: as) (b :: bs), r.start < r.stop :=
      fun r hr => (intersect_mem_bound _ _ r hr).1
    refine ⟨hmem, ?_⟩
    rw [intersectRegions, if_pos hse]
    have hrest : ∀ r ∈ (if a.stop < b.stop then intersectRegions as (b :: bs)
        else intersectRegions (a :: as) bs), min a.stop b.stop < r.start := by
      intro r hr
      split at hr
      · obtain ⟨-, x, hx, y, hy, hs, -⟩ := intersect_mem_bound _ _ r hr
        have : a.stop < x.start := region_lt_of_separated_tail ha.1 ha.2 x hx
        calc min a.stop b.stop ≤ a.stop := min_le_left _ _
          _ < x.start := this
          _ ≤ max x.start y.start := le_max_left _ _
          _ = r.start := hs.symm
      · obtain ⟨-, x, hx, y, hy, hs, -⟩ := intersect_mem_bound _ _ r hr
        have : b.stop < y.start := region_lt_of_separated_tail hb.1 hb.2 y hy
        calc min a.stop b.stop ≤ b.stop := min_le_right _ _
          _ < y.start := this
          _ ≤ max x.start y.start := le_max_right _ _
          _ = r.start := hs.symm
    rw [List.chain'_cons']
    constructor
    · intro y hy
      exact hrest y (List.mem_of_mem_head? hy)
    · split
      · exact (ih1 ha.consTail hb).2
      · exact (ih2 ha hb.consTail).2
  | case4 a as b bs s e hse ih1 ih2 =>
    intro ha hb
    have hmem : ∀ r ∈ intersectRegions (a :: as) (b :: bs), r.start < r.stop :=
      fun r hr => (intersect_mem_bound _ _ r hr).1
    refine ⟨hmem, ?_⟩
    rw [intersectRegions, if_neg hse]
    split
    · exact (ih1 ha.consTail hb).2
    · exact (ih2 ha hb.consTail).2

lemma intersect_nil_right (l : List Region) : intersectRegions l [] = [] := by
  cases l <;> simp [intersectRegions]

lemma intersect_drop_head_fst {a : Region} (as bs : List Region)
    (hbs : ∀ y ∈ bs, y.start < y.stop) (hbound : ∀ y ∈ bs, a.stop ≤ y.start) :
    intersectRegions (a :: as) bs = intersectRegions as bs := by
  cases bs with
  | nil => simp [intersectRegions, intersect_nil_right]
  | cons y bs' =>
    exact intersect_skip_fst _ _ (hbs y (by simp)) (hbound y (by simp))

lemma intersect_drop_head_snd {b : Region} (as bs : List Region)
    (has : ∀ x ∈ as, x.start < x.stop) (hbound : ∀ x ∈ as, b.stop ≤ x.start) :
    intersectRegions as (b :: bs) = intersectRegions as bs := by
  cases as with
  | nil => simp [intersectRegions]
  | cons z as' =>
    exact intersect_skip_snd _ _ (has z (by simp)) (hbound z (by simp))

lemma intersect_comm : ∀ (a b : List Region),
    IntervalInvariant a → IntervalInvariant b →
    intersectRegions a b = intersectRegions b a := by
  intro a b
  induction a, b using intersectRegions.induct with
  | case1 x =>
    intro _ _
    cases x <;> simp [intersectRegions]
  | case2 h t =>
    intro _ _
    simp [intersectRegions]
  | case3 a as b bs s e hse ih1 ih2 =>
    intro ha hb
    have hbnd_as : ∀ x ∈ as, a.stop ≤ x.start :=
      region_lt_of_invariant_tail ha.1 ha.2
    have hbnd_bs : ∀ y ∈ bs, b.stop ≤ y.start :=
      region_lt_of_invariant_tail hb.1 hb.2
    have hrest : (if a.stop < b.stop then intersectRegions as (b :: bs)
        else intersectRegions (a :: as) bs) =
        (if b.stop < a.stop then intersectRegions bs (a :: as)
        else intersectRegions (b :: bs) as) := by
      rcases lt_trichotomy a.stop b.stop with hlt | heq | hgt
      · rw [if_pos hlt, if_neg (not_lt.mpr (le_of_lt hlt)), ih1 ha.ofCons hb]
      · rw [if_neg (heq ▸ lt_irrefl _), if_neg (heq ▸ lt_irrefl _)]
        have e1 : intersectRegions (a :: as) bs = intersectRegions as bs :=
          intersect_drop_head_fst _ _
            (fun y hy => hb.1 y (List.mem_cons_of_mem _ hy))
            (fun y hy => heq ▸ hbnd_bs y hy)
        have e2 : intersectRegions (b :: bs) as = intersectRegions bs as :=
          intersect_drop_head_fst _ _
            (fun x hx => ha.1 x (List.mem_cons_of_mem _ hx))
            (fun x hx => heq.symm ▸ hbnd_as x hx)
        have e3 : intersectRegions as (b :: bs) = intersectRegions as bs :=
          intersect_drop_head_snd _ _
            (fun x hx => ha.1 x (List.mem_cons_of_mem _ hx))
            (fun x hx => heq.symm ▸ hbnd_as x hx)
        have e4 : intersectRegions (b :: bs) as = intersectRegions bs as := e2
        rw [e1, e2, ← e3, ih1 ha.ofCons hb, e4]
      · rw [if_neg (not_lt.mpr (le_of_lt hgt)), if_pos hgt, ih2 ha hb.ofCons]
    rw [intersectRegions, intersectRegions, max_comm b.start a.start,
      min_comm b.stop a.stop, hrest]
  | case4 a as b bs s e hse ih1 ih2 =>
    intro ha hb
    have hbnd_as : ∀ x ∈ as, a.stop ≤ x.start :=
      region_lt_of_invariant_tail ha.1 ha.2
    have hbnd_bs : ∀ y ∈ bs, b.stop ≤ y.start :=
      region_lt_of_invariant_tail hb.1 hb.2
    have hrest : (if a.stop < b.stop then intersectRegions as (b :: bs)
        else intersectRegions (a :: as) bs) =
        (if b.stop < a.stop then intersectRegions bs (a :: as)
        else intersectRegions (b :: bs) as) := by
      rcases lt_trichotomy a.stop b.stop with hlt | heq | hgt
      · rw [if_pos hlt, if_neg (not_lt.mpr (le_of_lt hlt)), ih1 ha.ofCons hb]
      · rw [if_neg (heq ▸ lt_irrefl _), if_neg (heq ▸ lt_irrefl _)]
        have e1 : intersectRegions (a :: as) bs = intersectRegions as bs :=
          intersect_drop_head_fst _ _
            (fun y hy => hb.1 y (List.mem_cons_of_mem _ hy))
            (fun y hy => heq ▸ hbnd_bs y hy)
        have e2 : intersectRegions (b :: bs) as = intersectRegions bs as :=
          intersect_drop_head_fst _ _
            (fun x hx => ha.1 x (List.mem_cons_of_mem _ hx))
            (fun x hx => heq.symm ▸ hbnd_as x hx)
        have e3 : intersectRegions as (b :: bs) = intersectRegions as bs :=
          intersect_drop_head_snd _ _
            (fun x hx => ha.1 x (List.mem_cons_of_mem _ hx))
            (fun x hx => heq.symm ▸ hbnd_as x hx)
        rw [e1, e2, ← e3, ih1 ha.ofCons hb, e2]
      · rw [if_neg (not_lt.mpr (le_of_lt hgt)), if_pos hgt, ih2 ha hb.ofCons]
    rw [intersectRegions, intersectRegions, max_comm b.start a.start,
      min_comm b.stop a.stop, hrest]

/-- `covers l t`: instant `t` lies inside some interval of `l`. -/
def covers (l : List Region) (t : ℚ) : Prop :=
  ∃ r ∈ l, r.start ≤ t ∧ t < r.stop

lemma covers_cons {r : Region} {l : List Region} {t : ℚ} (h : covers l t) :
    covers (r :: l) t := by
  obtain ⟨x, hx, hxs⟩ := h
  exact ⟨x, List.mem_cons_of_mem _ hx, hxs⟩

lemma covers_intersect : ∀ (a b : List Region),
    IntervalInvariant a → IntervalInvariant b → ∀ t : ℚ,
    (covers (intersectRegions a b) t ↔ covers a t ∧ covers b t) := by
  intro a b
  induction a, b using intersectRegions.induct with
  | case1 x =>
    intro _ _ t
    simp [intersectRegions, covers]
  | case2 h t' =>
    intro _ _ t
    simp [intersectRegions, covers]
  | case3 a as b bs s e hse ih1 ih2 =>
    intro ha hb t
    have hbnd_as : ∀ x ∈ as, a.stop ≤ x.start :=
      region_lt_of_invariant_tail ha.1 ha.2
    have hbnd_bs : ∀ y ∈ bs, b.stop ≤ y.start :=
      region_lt_of_invariant_tail hb.1 hb.2
    rw [intersectRegions, if_pos hse]
    constructor
    · rintro ⟨r, hr, hrs, hrt⟩
      rcases List.mem_cons.mp hr with rfl | hrest
      · exact ⟨⟨a, List.mem_cons_self _ _, le_trans (le_max_left _ _) hrs,
          lt_of_lt_of_le hrt (min_le_left _ _)⟩,
          ⟨b, List.mem_cons_self _ _, le_trans (le_max_right _ _) hrs,
          lt_of_lt_of_le hrt (min_le_right _ _)⟩⟩
      · split at hrest
        · obtain ⟨hca, hcb⟩ := (ih1 ha.ofCons hb t).mp ⟨r, hrest, hrs, hrt⟩
          exact ⟨covers_cons hca, hcb⟩
        · obtain ⟨hca, hcb⟩ := (ih2 ha hb.ofCons t).mp ⟨r, hrest, hrs, hrt⟩
          exact ⟨hca, covers_cons hcb⟩
    · rintro ⟨⟨x, hx, hxs, hxt⟩, ⟨y, hy, hys, hyt⟩⟩
      rcases List.mem_cons.mp hx with rfl | hxas
      · rcases List.mem_cons.mp hy with rfl | hybs
        · exact ⟨⟨s, e⟩, List.mem_cons_self _ _, max_le hxs hys, lt_min hxt hyt⟩
        · have hyb : b.stop ≤ y.start := hbnd_bs y hybs
          have hadv : ¬ x.stop < b.stop := fun hlt =>
            absurd (lt_of_lt_of_le (lt_trans hxt hlt) hyb) (not_lt.mpr hys)
          refine covers_cons ?_
          rw [if_neg hadv]
          exact (ih2 ha hb.ofCons t).mpr
            ⟨⟨x, List.mem_cons_self _ _, hxs, hxt⟩, ⟨y, hybs, hys, hyt⟩⟩
      · rcases List.mem_cons.mp hy with rfl | hybs
        · have hxa : a.stop ≤ x.start := hbnd_as x hxas
          have hadv : a.stop < y.stop := by
            by_contra hge
            have h1 : t < a.stop := lt_of_lt_of_le hyt (not_lt.mp hge)
            have h2 : x.start ≤ t := hxs
            linarith
          refine covers_cons ?_
          rw [if_pos hadv]
          exact (ih1 ha.ofCons hb t).mpr
            ⟨⟨x, hxas, hxs, hxt⟩, ⟨y, List.mem_cons_self _ _, hys, hyt⟩⟩
        · refine covers_cons ?_
          split
          · exact (ih1 ha.ofCons hb t).mpr
              ⟨⟨x, hxas, hxs, hxt⟩, ⟨y, hy, hys, hyt⟩⟩
          · exact (ih2 ha hb.ofCons t).mpr
              ⟨⟨x, hx, hxs, hxt⟩, ⟨y, hybs, hys, hyt⟩⟩
  | case4 a as b bs s e hse ih1 ih2 =>
    intro ha hb t
    have hbnd_as : ∀ x ∈ as, a.stop ≤ x.start :=
      region_lt_of_invariant_tail ha.1 ha.2
    have hbnd_bs : ∀ y ∈ bs, b.stop ≤ y.start :=
      region_lt_of_invariant_tail hb.1 hb.2
    rw [intersectRegions, if_neg hse]
    constructor
    · intro hr
      split at hr
      · obtain ⟨hca, hcb⟩ := (ih1 ha.ofCons hb t).mp hr
        exact ⟨covers_cons hca, hcb⟩
      · obtain ⟨hca, hcb⟩ := (ih2 ha hb.ofCons t).mp hr
        exact ⟨hca, covers_cons hcb⟩
    · rintro ⟨⟨x, hx, hxs, hxt⟩, ⟨y, hy, hys, hyt⟩⟩
      rcases List.mem_cons.mp hx with rfl | hxas
      · rcases List.mem_cons.mp hy with rfl | hybs
        · exact absurd (lt_of_le_of_lt (max_le hxs hys) (lt_min hxt hyt)) hse
        · have hyb : b.stop ≤ y.start := hbnd_bs y hybs
          have hadv : ¬ x.stop < b.stop := fun hlt =>
            absurd (lt_of_lt_of_le (lt_trans hxt hlt) hyb) (not_lt.mpr hys)
          rw [if_neg hadv]
          exact (ih2 ha hb.ofCons t).mpr
            ⟨⟨x, List.mem_cons_self _ _, hxs, hxt⟩, ⟨y, hybs, hys, hyt⟩⟩
      · rcases List.mem_cons.mp hy with rfl | hybs
        · have hxa : a.stop ≤ x.start := hbnd_as x hxas
          have hadv : a.stop < y.stop := by
            by_contra hge
            have h1 : t < a.stop := lt_of_lt_of_le hyt (not_lt.mp hge)
            have h2 : x.start ≤ t := hxs
            linarith
          rw [if_pos hadv]
          exact (ih1 ha.ofCons hb t).mpr
            ⟨⟨x, hxas, hxs, hxt⟩, ⟨y, List.mem_cons_self _ _, hys, hyt⟩⟩
        · split
          · exact (ih1 ha.ofCons hb t).mpr
              ⟨⟨x, hxas, hxs, hxt⟩, ⟨y, hy, hys, hyt⟩⟩
          · exact (ih2 ha hb.ofCons t).mpr
              ⟨⟨x, hx, hxs, hxt⟩, ⟨y, hybs, hys, hyt⟩⟩

lemma separated_covers_ext : ∀ (l m : List Region),
    SeparatedInvariant l → SeparatedInvariant m →
    (∀ t, covers l t ↔ covers m t) → l = m := by
  intro l
  induction l with
  | nil =>
    intro m _ hm hcov
    cases m with
    | nil => rfl
    | cons smh m' =>
      exfalso
      have : covers (smh :: m') smh.start :=
        ⟨smh, List.mem_cons_self _ _, le_refl _, hm.1 smh (List.mem_cons_self _ _)⟩
      obtain ⟨r, hr, -⟩ := (hcov smh.start).mpr this
      simp at hr
  | cons r l' ih =>
    intro m hl hm hcov
    cases m with
    | nil =>
      exfalso
      have : covers (r :: l') r.start :=
        ⟨r, List.mem_cons_self _ _, le_refl _, hl.1 r (List.mem_cons_self _ _)⟩
      obtain ⟨x, hx, -⟩ := (hcov r.start).mp this
      simp at hx
    | cons q m' =>
      have hrlt : r.start < r.stop := hl.1 r (List.mem_cons_self _ _)
      have hqlt : q.start < q.stop := hm.1 q (List.mem_cons_self _ _)
      have hl_tail_bound : ∀ x ∈ l', r.stop < x.start :=
        region_lt_of_separated_tail hl.1 hl.2
      have hm_tail_bound : ∀ y ∈ m', q.stop < y.start :=
        region_lt_of_separated_tail hm.1 hm.2
      -- the head starts agree: each is the minimum covered instant
      have hstart_le : q.start ≤ r.start := by
        obtain ⟨y, hy, hys, -⟩ := (hcov r.start).mp
          ⟨r, List.mem_cons_self _ _, le_refl _, hrlt⟩
        rcases List.mem_cons.mp hy with rfl | hym'
        · exact hys
        · have := hm_tail_bound y hym'
          linarith
      have hstart_ge : r.start ≤ q.start := by
        obtain ⟨x, hx, hxs, -⟩ := (hcov q.start).mpr
          ⟨q, List.mem_cons_self _ _, le_refl _, hqlt⟩
        rcases List.mem_cons.mp hx with rfl | hxl'
        · exact hxs
        · have := hl_tail_bound x hxl'
          linarith
      have hstart : r.start = q.start := le_antisymm hstart_ge hstart_le
      -- the head stops agree
      have hstop_le : r.stop ≤ q.stop := by
        by_contra hgt
        push_neg at hgt
        -- q.stop is covered by l but not by m
        have hcovl : covers (r :: l') q.stop :=
          ⟨r, List.mem_cons_self _ _, by rw [hstart]; exact le_of_lt hqlt, hgt⟩
        obtain ⟨y, hy, hys, hyt⟩ := (hcov q.stop).mp hcovl
        rcases List.mem_cons.mp hy with rfl | hym'
        · exact absurd hyt (lt_irrefl _)
        · have := hm_tail_bound y hym'
          linarith
      have hstop_ge : q.stop ≤ r.stop := by
        by_contra hgt
        push_neg at hgt
        have hcovm : covers (q :: m') r.stop :=
          ⟨q, List.mem_cons_self _ _, by rw [← hstart]; exact le_of_lt hrlt, hgt⟩
        obtain ⟨x, hx, hxs, hxt⟩ := (hcov r.stop).mpr hcovm
        rcases List.mem_cons.mp hx with rfl | hxl'
        · exact absurd hxt (lt_irrefl _)
        · have := hl_tail_bound x hxl'
          linarith
      have hstop : r.stop = q.stop := le_antisymm hstop_le hstop_ge
      have hhead : r = q := by
        cases r; cases q
        simp_all
      subst hhead
      -- tails cover the same instants
      have htails : ∀ t, covers l' t ↔ covers m' t := by
        intro t
        constructor
        · intro hc
          obtain ⟨x, hx, hxs, hxt⟩ := hc
          have ht : r.stop < t := lt_of_lt_of_le (hl_tail_bound x hx) hxs
          obtain ⟨y, hy, hys, hyt⟩ := (hcov t).mp ⟨x, List.mem_cons_of_mem _ hx, hxs, hxt⟩
          rcases List.mem_cons.mp hy with rfl | hym'
          · rw [hstop] at ht
            exact absurd hyt (not_lt.mpr (le_of_lt ht))
          · exact ⟨y, hym', hys, hyt⟩
        · intro hc
          obtain ⟨y, hy, hys, hyt⟩ := hc
          have ht : r.stop < t := by
            have := hm_tail_bound y hy
            rw [hstop]
            linarith
          obtain ⟨x, hx, hxs, hxt⟩ := (hcov t).mpr ⟨y, List.mem_cons_of_mem _ hy, hys, hyt⟩
          rcases List.mem_cons.mp hx with rfl | hxl'
          · exact absurd hxt (not_lt.mpr (le_of_lt ht))
          · exact ⟨x, hxl', hxs, hxt⟩
      rw [ih m' hl.consTail hm.consTail htails]

lemma intersect_assoc (a b c : List Region)
    (ha : SeparatedInvariant a) (hb : SeparatedInvariant b)
    (hc : SeparatedInvariant c) :
    intersectRegions (intersectRegions a b) c =
      intersectRegions a (intersectRegions b c) := by
  have hab := intersect_separated a b ha hb
  have hbc := intersect_separated b c hb hc
  have ha' : IntervalInvariant a := ⟨ha.1, ha.2.imp (fun _ _ h => le_of_lt h)⟩
  have hb' : IntervalInvariant b := ⟨hb.1, hb.2.imp (fun _ _ h => le_of_lt h)⟩
  have hc' : IntervalInvariant c := ⟨hc.1, hc.2.imp (fun _ _ h => le_of_lt h)⟩
  have hab' : IntervalInvariant (intersectRegions a b) :=
    ⟨hab.1, hab.2.imp (fun _ _ h => le_of_lt h)⟩
  have hbc' : IntervalInvariant (intersectRegions b c) :=
    ⟨hbc.1, hbc.2.imp (fun _ _ h => le_of_lt h)⟩
  apply separated_covers_ext _ _
    (intersect_separated _ _ hab hc) (intersect_separated _ _ ha hbc)
  intro t
  rw [covers_intersect _ _ hab' hc', covers_intersect _ _ ha' hb',
    covers_intersect _ _ ha' hbc', covers_intersect _ _ hb' hc']
  tauto

lemma div_mono_rate {i j : ℕ} {rate : ℕ} (hr : 1 ≤ rate) (hij : i < j) :
    (i : ℚ) / (rate : ℚ) < (j : ℚ) / (rate : ℚ) := by
  apply div_lt_div_of_pos_right ?_ ?_
  · exact_mod_cast hij
  · exact_mod_cast hr

lemma silenceLoop_bound (rate w : ℕ) (θ δ : ℚ) (hrate : 1 ≤ rate) :
    ∀ (i : ℕ) (ss : Option ℚ) (l : List ℚ),
      (∀ s, ss = some s → ∃ i0 : ℕ, i0 < i ∧ s = (i0 : ℚ) / (rate : ℚ)) →
      SeparatedInvariant (silenceLoop rate w θ δ i ss l) ∧
      ∀ r ∈ silenceLoop rate w θ δ i ss l,
        (match ss with
         | some s => s
         | none => (i : ℚ) / (rate : ℚ)) ≤ r.start := by
  intro i ss l
  induction i, ss, l using silenceLoop.induct rate w θ δ with
  | case1 i =>
    intro _
    rw [silenceLoop]
    exact ⟨⟨by simp, by simp⟩, by simp⟩
  | case2 i s hemit =>
    intro hss
    rw [silenceLoop]
    simp only [if_pos hemit]
    obtain ⟨i0, hi0, rfl⟩ := hss _ rfl
    refine ⟨⟨?_, by simp⟩, ?_⟩
    · intro r hr
      rw [List.mem_singleton] at hr
      subst hr
      exact div_mono_rate hrate hi0
    · intro r hr
      rw [List.mem_singleton] at hr
      subst hr
      exact le_refl _
  | case3 i s hemit =>
    intro _
    rw [silenceLoop]
    simp only [if_neg hemit]
    exact ⟨⟨by simp, by simp⟩, by simp⟩
  | case4 i ss x ls hw =>
    intro _
    rw [silenceLoop]
    simp only [dif_pos hw]
    exact ⟨⟨by simp, by simp⟩, by simp⟩
  | case5 i ss x ls hw win t hq ih =>
    intro hss
    have hwin1 : 1 ≤ win.length := by
      simp only [win, List.length_take, List.length_cons]
      omega
    have hstate : ∀ s, some (ss.getD t) = some s →
        ∃ i0 : ℕ, i0 < i + win.length ∧ s = (i0 : ℚ) / (rate : ℚ) := by
      intro s hs
      rw [Option.some_inj] at hs
      cases ss with
      | none =>
        exact ⟨i, by omega, by simp [Option.getD] at hs; rw [← hs]⟩
      | some s0 =>
        obtain ⟨i0, hi0, rfl⟩ := hss s0 rfl
        simp only [Option.getD_some] at hs
        exact ⟨i0, by omega, hs.symm⟩
    obtain ⟨hsep, hbound⟩ := ih hstate
    rw [silenceLoop]
    simp only [dif_neg hw, if_pos hq]
    refine ⟨hsep, ?_⟩
    intro r hr
    have := hbound r hr
    cases ss with
    | none => simpa using this
    | some s0 => simpa using this
  | case6 i ss x ls hw win hq ih =>
    intro hss
    have hwin1 : 1 ≤ win.length := by
      simp only [win, List.length_take, List.length_cons]
      omega
    obtain ⟨hsep, hbound⟩ := ih (by simp)
    have hstep : (i : ℚ) / (rate : ℚ) < ((i + win.length : ℕ) : ℚ) / (rate : ℚ) :=
      div_mono_rate hrate (by omega)
    rw [silenceLoop]
    simp only [dif_neg hw, if_neg hq]
    cases ss with
    | none =>
      refine ⟨hsep, ?_⟩
      intro r hr
      simp only [List.nil_append] at hr
      have := hbound r hr
      simp only at this
      calc (i : ℚ) / (rate : ℚ) ≤ ((i + win.length : ℕ) : ℚ) / (rate : ℚ) := le_of_lt hstep
        _ ≤ r.start := this
    | some s0 =>
      obtain ⟨i0, hi0, rfl⟩ := hss s0 rfl
      have hs0t : (i0 : ℚ) / (rate : ℚ) < (i : ℚ) / (rate : ℚ) := div_mono_rate hrate hi0
      by_cases hdur : δ ≤ (i : ℚ) / (rate : ℚ) - (i0 : ℚ) / (rate : ℚ)
      · simp only [if_pos hdur, List.singleton_append]
        constructor
        · constructor
          · intro r hr
            rcases List.mem_cons.mp hr with rfl | hr'
            · exact hs0t
            · exact hsep.1 r hr'
          · rw [List.chain'_cons']
            refine ⟨?_, hsep.2⟩
            intro y hy
            have hmem := List.mem_of_mem_head? hy
            have := hbound y hmem
            simp only at this
            calc (i : ℚ) / (rate : ℚ) < ((i + win.length : ℕ) : ℚ) / (rate : ℚ) := hstep
              _ ≤ y.start := this
        · intro r hr
          rcases List.mem_cons.mp hr with rfl | hr'
          · exact le_refl _
          · have := hbound r hr'
            simp only at this
            calc (i0 : ℚ) / (rate : ℚ) ≤ (i : ℚ) / (rate : ℚ) := le_of_lt hs0t
              _ ≤ ((i + win.length : ℕ) : ℚ) / (rate : ℚ) := le_of_lt hstep
              _ ≤ r.start := this
      · simp only [if_neg hdur, List.nil_append]
        refine ⟨hsep, ?_⟩
        intro r hr
        have := hbound r hr
        simp only at this
        calc (i0 : ℚ) / (rate : ℚ) ≤ (i : ℚ) / (rate : ℚ) := le_of_lt hs0t
          _ ≤ ((i + win.length : ℕ) : ℚ) / (rate : ℚ) := le_of_lt hstep
          _ ≤ r.start := this

lemma detectSilence_separated (buffer : AudioBuffer) (options : SilenceOptions)
    (hrate : 1 ≤ buffer.sampleRate) :
    SeparatedInvariant (detectSilence buffer options).silenceRegions :=
  (silenceLoop_bound buffer.sampleRate (windowSize buffer.sampleRate)
    options.silenceThreshold options.minSilenceDuration hrate 0 none
    (buffer.getChannelData 0) (by simp)).1

lemma SeparatedInvariant.toIntervalInvariant {l : List Region}
    (h : SeparatedInvariant l) : IntervalInvariant l :=
  ⟨h.1, h.2.imp (fun _ _ hxy => le_of_lt hxy)⟩

/-- Silence-region lists carrying the invariant `detectSilence` guarantees. -/
def SepRegions : Type := {l : List Region // SeparatedInvariant l}

def sepIntersect (x y : SepRegions) : SepRegions :=
  ⟨intersectRegions x.1 y.1, intersect_separated _ _ x.2 y.2⟩

lemma sepIntersect_comm (x y : SepRegions) : sepIntersect x y = sepIntersect y x :=
  Subtype.ext (intersect_comm _ _ x.2.toIntervalInvariant y.2.toIntervalInvariant)

lemma sepIntersect_assoc (x y z : SepRegions) :
    sepIntersect (sepIntersect x y) z = sepIntersect x (sepIntersect y z) :=
  Subtype.ext (intersect_assoc _ _ _ x.2 y.2 z.2)

/-- `sepIntersect` lifted to `Option` with `none` as identity, in the shape
`List.foldl` takes. -/
def sepIntersectO (o : Option SepRegions) (y : SepRegions) : Option SepRegions :=
  some (match o with
        | none => y
        | some x => sepIntersect x y)

instance : RightCommutative sepIntersectO := by
  constructor
  intro o a b
  cases o with
  | none => simp [sepIntersectO, sepIntersect_comm a b]
  | some x =>
    simp only [sepIntersectO, Option.some_inj]
    rw [sepIntersect_assoc, sepIntersect_assoc, sepIntersect_comm a b]

lemma foldl_sepIntersectO_some (l : List SepRegions) (x : SepRegions) :
    List.foldl sepIntersectO (some x) l = some (List.foldl sepIntersect x l) := by
  induction l generalizing x with
  | nil => rfl
  | cons y ys ih => simp [List.foldl_cons, sepIntersectO, ih]

lemma foldl_sepIntersect_val (l : List SepRegions) (x : SepRegions) :
    (List.foldl sepIntersect x l).1 =
      List.foldl intersectRegions x.1 (l.map Subtype.val) := by
  induction l generalizing x with
  | nil => rfl
  | cons y ys ih => simp [List.foldl_cons, sepIntersect, ih]

lemma detectDeadAir_eq_foldl (options : SilenceOptions) (bs : List AudioBuffer)
    (hr : ∀ b ∈ bs, 1 ≤ b.sampleRate) :
    Option.map Subtype.val
        (List.foldl sepIntersectO none
          (bs.pmap (fun b hb =>
            (⟨(detectSilence b options).silenceRegions,
              detectSilence_separated b options hb⟩ : SepRegions)) hr)) =
      match bs with
      | [] => none
      | _ :: _ => some (detectDeadAirAcrossTracks bs options) := by
  cases bs with
  | nil => rfl
  | cons c cs =>
    rw [List.pmap, List.foldl_cons]
    have h1 : sepIntersectO none
        (⟨(detectSilence c options).silenceRegions,
          detectSilence_separated c options (hr c (List.mem_cons_self _ _))⟩) =
        some ⟨(detectSilence c options).silenceRegions,
          detectSilence_separated c options (hr c (List.mem_cons_self _ _))⟩ := rfl
    rw [h1, foldl_sepIntersectO_some, Option.map_some', foldl_sepIntersect_val]
    rw [List.map_pmap]
    simp only []
    rw [List.pmap_eq_map]
    rfl

/-- C2: `intersectRegions` is commutative on interval lists satisfying the
data-model invariant, and the fold of `detectDeadAirAcrossTracks` over
N ≥ 1 silence reports is order-independent: permuting the buffers never
changes the resulting dead-air interval set. -/
theorem intersectRegions_comm_and_permutation_invariant :
    (∀ a b : List Region, IntervalInvariant a → IntervalInvariant b →
      intersectRegions a b = intersectRegions b a) ∧
    (∀ (options : SilenceOptions) (buffers buffers' : List AudioBuffer),
      buffers ≠ [] → (∀ b ∈ buffers, 1 ≤ b.sampleRate) →
      buffers.Perm buffers' →
      detectDeadAirAcrossTracks buffers options =
        detectDeadAirAcrossTracks buffers' options) := by
  refine ⟨intersect_comm, ?_⟩
  intro options buffers buffers' hne hr hperm
  have hr' : ∀ b ∈ buffers', 1 ≤ b.sampleRate := fun b hb =>
    hr b (hperm.symm.subset hb)
  have hfold : List.foldl sepIntersectO none
        (buffers.pmap (fun b hb =>
          (⟨(detectSilence b options).silenceRegions,
            detectSilence_separated b options hb⟩ : SepRegions)) hr) =
      List.foldl sepIntersectO none
        (buffers'.pmap (fun b hb =>
          (⟨(detectSilence b options).silenceRegions,
            detectSilence_separated b options hb⟩ : SepRegions)) hr') :=
    List.Perm.foldl_eq (List.Perm.pmap _ hperm) none
  have h1 := detectDeadAir_eq_foldl options buffers hr
  have h2 := detectDeadAir_eq_foldl options buffers' hr'
  rw [hfold] at h1
  rw [h2] at h1
  cases buffers with
  | nil => exact absurd rfl hne
  | cons c cs =>
    cases buffers' with
    | nil => exact absurd (List.Perm.nil_eq hperm.symm).symm hne
    | cons c' cs' =>
      simpa using h1.symm

lemma invariant_pairwise : ∀ (l : List Region), IntervalInvariant l →
    l.Pairwise (fun x y => x.start < y.start) := by
  intro l
  induction l with
  | nil => intro _; exact List.Pairwise.nil
  | cons r l' ih =>
    intro h
    refine List.Pairwise.cons ?_ (ih h.ofCons)
    intro x hx
    have h1 : r.start < r.stop := h.1 r (List.mem_cons_self _ _)
    have h2 : r.stop ≤ x.start := region_lt_of_invariant_tail h.1 h.2 x hx
    linarith

/-- C8: every silence report `detectSilence` emits satisfies the interval
invariant — each interval has `start < end`, the list is sorted strictly
ascending by start and no two intervals overlap — and `intersectRegions`
preserves the invariant on sorted, non-overlapping inputs. -/
theorem silence_report_interval_invariant :
    (∀ (buffer : AudioBuffer) (options : SilenceOptions),
      1 ≤ buffer.sampleRate →
      IntervalInvariant (detectSilence buffer options).silenceRegions ∧
      ((detectSilence buffer options).silenceRegions).Pairwise
        (fun x y => x.start < y.start)) ∧
    (∀ a b : List Region, IntervalInvariant a → IntervalInvariant b →
      IntervalInvariant (intersectRegions a b)) := by
  refine ⟨?_, intersect_invariant⟩
  intro buffer options hrate
  have h := (detectSilence_separated buffer options hrate).toIntervalInvariant
  exact ⟨h, invariant_pairwise _ h⟩

/-- C8 witness: a concrete buffer (rate 20, samples `1,0,0,1,0,0`) whose
report has two separated intervals, and a concrete intersection. -/
theorem silence_report_interval_invariant_witness :
    (1 : ℕ) ≤ (AudioBuffer.mk 20 [[1, 0, 0, 1, 0, 0]]).sampleRate ∧
    IntervalInvariant
      (detectSilence ⟨20, [[1, 0, 0, 1, 0, 0]]⟩ ⟨1/100, 1/20, 3/10⟩).silenceRegions ∧
    IntervalInvariant [(⟨0, 1⟩ : Region)] ∧
    IntervalInvariant [(⟨1/2, 2⟩ : Region)] ∧
    IntervalInvariant (intersectRegions [⟨0, 1⟩] [⟨1/2, 2⟩]) :=
  ⟨by norm_num,
   ((silence_report_interval_invariant.1 ⟨20, [[1, 0, 0, 1, 0, 0]]⟩
      ⟨1/100, 1/20, 3/10⟩ (by norm_num)).1),
   by norm_num [IntervalInvariant],
   by norm_num [IntervalInvariant],
   silence_report_interval_invariant.2 _ _
     (by norm_num [IntervalInvariant])
     (by norm_num [IntervalInvariant])⟩

/-- C2 witness: commutativity on two concrete one-interval lists, and
permutation-invariance of the cross-track fold on two concrete tracks. -/
theorem intersectRegions_comm_witness :
    IntervalInvariant [(⟨0, 1⟩ : Region)] ∧
    IntervalInvariant [(⟨1/2, 2⟩ : Region)] ∧
    intersectRegions [⟨0, 1⟩] [⟨1/2, 2⟩] = intersectRegions [⟨1/2, 2⟩] [⟨0, 1⟩] ∧
    detectDeadAirAcrossTracks
        [⟨20, [[1, 0, 0, 0, 1]]⟩, ⟨20, [[0, 0, 0, 1, 1]]⟩] ⟨1/100, 1/20, 3/10⟩ =
      detectDeadAirAcrossTracks
        [⟨20, [[0, 0, 0, 1, 1]]⟩, ⟨20, [[1, 0, 0, 0, 1]]⟩] ⟨1/100, 1/20, 3/10⟩ := by
  refine ⟨?_, ?_, ?_, ?_⟩
  · norm_num [IntervalInvariant]
  · norm_num [IntervalInvariant]
  · exact intersectRegions_comm_and_permutation_invariant.1 _ _
      (by norm_num [IntervalInvariant])
      (by norm_num [IntervalInvariant])
  · refine intersectRegions_comm_and_permutation_invariant.2 _ _ _
      (by simp) ?_ (List.Perm.swap _ _ _)
    intro b hb
    rcases List.mem_cons.mp hb with rfl | hb'
    · norm_num
    · rcases List.mem_cons.mp hb' with rfl | hb''
      · norm_num
      · simp at hb''

/-! ### Claim C4: `detectSilence` against the spec's window/run description -/

/-- Modelled from the spec (§4.3): the fixed 50 ms windows of the buffer,
in scan order (the final window may be shorter).  Empty when `w = 0`
(there the scan itself diverges in the source). -/
def windowsOf (w : ℕ) : List ℚ → List (List ℚ)
  | [] => []
  | x :: ls =>
    if _hw : w = 0 then []
    else (x :: ls).take w :: windowsOf w ((x :: ls).drop w)
termination_by l => l.length
decreasing_by
  all_goals simp only [List.length_drop, List.length_cons]
  all_goals omega

/-- Modelled from the spec (§4.3): the maximal quiet runs of a window
classification, as half-open window index ranges `(first, end)`; `st`
carries the start index of the currently open run.  A run is closed by a
non-quiet window (its index becomes the run's `end`) or by the end of the
buffer (the range then ends at the total window count). -/
def quietRuns : List Bool → ℕ → Option ℕ → List (ℕ × ℕ)
  | [], _, none => []
  | [], k, some j => [(j, k)]
  | true :: fs, k, none => quietRuns fs (k + 1) (some k)
  | true :: fs, k, some j => quietRuns fs (k + 1) (some j)
  | false :: fs, k, none => quietRuns fs (k + 1) none
  | false :: fs, k, some j => (j, k) :: quietRuns fs (k + 1) none

/-- Modelled from the spec (§4.3): translate a quiet run to its silence
interval — start and end at the window boundaries (`index × w / rate`),
except that a run reaching the window count `nw` ends at the buffer
duration `total / rate`; the interval is kept only when it lasts at least
`minDuration`. -/
def runToRegion (rate w : ℕ) (minDuration : ℚ) (total nw : ℕ) (p : ℕ × ℕ) :
    Option Region :=
  let startT : ℚ := ((p.1 * w : ℕ) : ℚ) / (rate : ℚ)
  let stopT : ℚ :=
    if p.2 = nw then ((total : ℕ) : ℚ) / (rate : ℚ)
    else ((p.2 * w : ℕ) : ℚ) / (rate : ℚ)
  if minDuration ≤ stopT - startT then some ⟨startT, stopT⟩ else none

/-- Modelled from the spec (§4.3): the full silence report — classify each
window by its RMS, take the maximal quiet runs, keep those lasting at
least `minDuration`. -/
def specSilenceRegions (rate w : ℕ) (threshold minDuration : ℚ)
    (l : List ℚ) : List Region :=
  let flags := (windowsOf w l).map (fun win => isQuietWindow win threshold)
  (quietRuns flags 0 none).filterMap
    (runToRegion rate w minDuration l.length flags.length)

lemma silenceLoop_eq_quietRuns (rate w : ℕ) (θ δ : ℚ) (hw : 1 ≤ w) :
    ∀ (n : ℕ) (l : List ℚ), l.length ≤ n → ∀ (k : ℕ) (st : Option ℕ),
      silenceLoop rate w θ δ (k * w)
          (st.map (fun j => ((j * w : ℕ) : ℚ) / (rate : ℚ))) l =
        (quietRuns ((windowsOf w l).map (fun win => isQuietWindow win θ)) k
            st).filterMap
          (runToRegion rate w δ (k * w + l.length)
            (k + (windowsOf w l).length)) := by
  have hw0 : ¬ w = 0 := by omega
  have hbase : ∀ (k : ℕ) (st : Option ℕ),
      silenceLoop rate w θ δ (k * w)
          (st.map (fun j => ((j * w : ℕ) : ℚ) / (rate : ℚ))) [] =
        (quietRuns ((windowsOf w ([] : List ℚ)).map
            (fun win => isQuietWindow win θ)) k st).filterMap
          (runToRegion rate w δ (k * w + ([] : List ℚ).length)
            (k + (windowsOf w ([] : List ℚ)).length)) := by
    intro k st
    cases st with
    | none => simp [silenceLoop, windowsOf, quietRuns]
    | some j =>
      simp only [silenceLoop, windowsOf, quietRuns, Option.map_some',
        List.map_nil, List.length_nil, Nat.add_zero, List.filterMap_cons,
        List.filterMap_nil, runToRegion, if_pos rfl]
      split <;> rename_i h <;> push_cast at h <;> simp [h]
  intro n
  induction n with
  | zero =>
    intro l hl k st
    have hnil : l = [] := List.length_eq_zero.mp (Nat.le_zero.mp hl)
    subst hnil
    exact hbase k st
  | succ m ih =>
    intro l hl k st
    cases l with
    | nil => exact hbase k st
    | cons x ls =>
      rw [silenceLoop, windowsOf]
      simp only [dif_neg hw0, List.map_cons, List.length_cons]
      have hgetD : (st.map (fun j => ((j * w : ℕ) : ℚ) / (rate : ℚ))).getD
          (((k * w : ℕ) : ℚ) / (rate : ℚ)) =
          (((st.getD k) * w : ℕ) : ℚ) / (rate : ℚ) := by
        cases st <;> simp
      by_cases hB : w < ls.length + 1
      · -- full window, at least one sample remains
        have hwinlen : (List.take w (x :: ls)).length = w := by
          simp only [List.length_take, List.length_cons]
          omega
        have hdroplen : (List.drop w (x :: ls)).length = ls.length + 1 - w := by
          simp [List.length_drop]
        have ht : (k + 1) * w + (List.drop w (x :: ls)).length =
            k * w + (ls.length + 1) := by
          rw [hdroplen]
          have h1 : (k + 1) * w = k * w + w := by ring
          omega
        have hn : k + 1 + (windowsOf w (List.drop w (x :: ls))).length =
            k + ((windowsOf w (List.drop w (x :: ls))).length + 1) := by
          omega
        by_cases hq : isQuietWindow (List.take w (x :: ls)) θ = true
        · rw [if_pos hq, hwinlen, hgetD]
          have hrec := ih (List.drop w (x :: ls)) (by simp only [List.length_drop, List.length_cons]; simp only [List.length_cons] at hl; omega)
            (k + 1) (some (st.getD k))
          simp only [Option.map_some'] at hrec
          have hi : k * w + w = (k + 1) * w := by ring
          rw [hi, hrec, ht, hn]
          congr 1
          cases st with
          | none => simp [quietRuns, hq]
          | some j => simp [quietRuns, hq]
        · rw [if_neg hq, hwinlen]
          have hrec := ih (List.drop w (x :: ls)) (by simp only [List.length_drop, List.length_cons]; simp only [List.length_cons] at hl; omega)
            (k + 1) none
          simp only [Option.map_none'] at hrec
          have hi : k * w + w = (k + 1) * w := by ring
          rw [hi, hrec, ht, hn]
          rw [Bool.not_eq_true] at hq
          cases st with
          | none =>
            simp [quietRuns, hq]
          | some j =>
            simp only [Option.map_some', hq, quietRuns]
            rw [List.filterMap_cons]
            have hknw : ¬ (k = k + ((windowsOf w (List.drop w (x :: ls))).length + 1)) := by
              omega
            simp only [runToRegion, if_neg hknw]
            split <;> rename_i h <;> push_cast at h ⊢ <;> simp [h]
      · -- final (possibly short) window: everything is consumed
        have hwinfull : List.take w (x :: ls) = x :: ls := by
          apply List.take_of_length_le
          simp only [List.length_cons]
          omega
        have hwinlen : (List.take w (x :: ls)).length = ls.length + 1 := by
          rw [hwinfull]
          simp
        have hdrop : List.drop w (x :: ls) = [] := by
          rw [List.drop_eq_nil_iff]
          simp only [List.length_cons]
          omega
        by_cases hq : isQuietWindow (List.take w (x :: ls)) θ = true
        · rw [if_pos hq, hwinlen, hgetD, hdrop]
          rw [silenceLoop]
          simp only [windowsOf, List.map_nil, List.length_nil, List.length_cons]
          have hruns : quietRuns [isQuietWindow (List.take w (x :: ls)) θ] k st =
              [(st.getD k, k + 1)] := by
            cases st with
            | none => simp [quietRuns, hq]
            | some j => simp [quietRuns, hq]
          rw [hruns, List.filterMap_cons, List.filterMap_nil]
          simp only [runToRegion, if_pos rfl]
          split <;> rename_i h <;> push_cast at h ⊢ <;> simp [h]
        · rw [if_neg hq, hwinlen, hdrop]
          rw [silenceLoop]
          simp only [windowsOf, List.map_nil, List.length_nil, List.length_cons]
          rw [Bool.not_eq_true] at hq
          cases st with
          | none =>
            simp [quietRuns, hq]
          | some j =>
            simp only [Option.map_some', hq, quietRuns]
            rw [List.filterMap_cons]
            have hknw : ¬ (k = k + (0 + 1)) := by omega
            simp only [runToRegion, if_neg hknw, List.filterMap_nil]
            split <;> rename_i h <;> push_cast at h ⊢ <;> simp [h]

lemma sumSquares_nonneg (win : List ℚ) : (0 : ℚ) ≤ sumSquares win := by
  unfold sumSquares
  apply List.sum_nonneg
  intro q hq
  obtain ⟨s, -, rfl⟩ := List.mem_map.mp hq
  exact mul_self_nonneg s

lemma isQuietWindow_iff_sqrt (win : List ℚ) (θ : ℚ) (hne : win ≠ []) :
    (isQuietWindow win θ = true ↔
      Real.sqrt ((sumSquares win : ℝ) / (win.length : ℝ)) < (θ : ℝ)) := by
  have hlen : 0 < (win.length : ℝ) := by
    have : 0 < win.length := List.length_pos.mpr hne
    exact_mod_cast this
  unfold isQuietWindow
  rw [decide_eq_true_iff]
  constructor
  · rintro ⟨hθ, hlt⟩
    have hθ' : (0 : ℝ) < (θ : ℝ) := by exact_mod_cast hθ
    rw [Real.sqrt_lt' hθ', sq]
    exact_mod_cast hlt
  · intro h
    have hθ' : (0 : ℝ) < (θ : ℝ) := lt_of_le_of_lt (Real.sqrt_nonneg _) h
    rw [Real.sqrt_lt' hθ', sq] at h
    exact ⟨by exact_mod_cast hθ', by exact_mod_cast h⟩

lemma windowsOf_ne_nil : ∀ (w : ℕ) (l : List ℚ), ∀ win ∈ windowsOf w l, win ≠ [] := by
  intro w l
  induction l using windowsOf.induct w with
  | case1 => intro win hwin; simp [windowsOf] at hwin
  | case2 x ls hw =>
    intro win hwin
    rw [windowsOf, dif_pos hw] at hwin
    simp at hwin
  | case3 x ls hw ih =>
    intro win hwin
    rw [windowsOf, dif_neg hw] at hwin
    rcases List.mem_cons.mp hwin with rfl | hwin'
    · intro hcontra
      have : ((x :: ls).take w).length = 0 := by rw [hcontra]; rfl
      simp only [List.length_take, List.length_cons] at this
      omega
    · exact ih win hwin'

/-- C4: `detectSilence` implements exactly the spec's description — it
partitions the buffer into fixed 50 ms windows, classifies each window as
quiet precisely when `RMS = sqrt(mean of squared samples) < threshold`,
and the emitted report consists of the maximal quiet runs (a run closed by
a non-quiet window ends at that window's start time, a run still open at
buffer end ends at the buffer duration) that last at least
`minSilenceDuration`; an empty buffer yields an empty report. -/
theorem detectSilence_window_run_spec (buffer : AudioBuffer)
    (options : SilenceOptions) (hrate : 20 ≤ buffer.sampleRate) :
    (detectSilence buffer options).silenceRegions =
      specSilenceRegions buffer.sampleRate (windowSize buffer.sampleRate)
        options.silenceThreshold options.minSilenceDuration
        (buffer.getChannelData 0) ∧
    (buffer.getChannelData 0 = [] →
      (detectSilence buffer options).silenceRegions = []) ∧
    (∀ win ∈ windowsOf (windowSize buffer.sampleRate) (buffer.getChannelData 0),
      (isQuietWindow win options.silenceThreshold = true ↔
        Real.sqrt ((sumSquares win : ℝ) / (win.length : ℝ)) <
          (options.silenceThreshold : ℝ))) := by
  have hw : 1 ≤ windowSize buffer.sampleRate := by
    unfold windowSize
    omega
  refine ⟨?_, ?_, ?_⟩
  · have h := silenceLoop_eq_quietRuns buffer.sampleRate
      (windowSize buffer.sampleRate) options.silenceThreshold
      options.minSilenceDuration hw (buffer.getChannelData 0).length
      (buffer.getChannelData 0) (le_refl _) 0 none
    simp only [Option.map_none', Nat.zero_mul, Nat.zero_add, List.length_map] at h
    unfold detectSilence specSilenceRegions
    simp only [List.length_map]
    exact h
  · intro h
    simp [detectSilence, h, silenceLoop]
  · intro win hwin
    exact isQuietWindow_iff_sqrt win _ (windowsOf_ne_nil _ _ win hwin)

/-- C4 witness: the theorem applied to a concrete 5-sample buffer at
20 Hz, with the spec-side report evaluated. -/
theorem detectSilence_window_run_spec_witness :
    (20 : ℕ) ≤ (AudioBuffer.mk 20 [[1, 0, 0, 0, 1]]).sampleRate ∧
    (detectSilence ⟨20, [[1, 0, 0, 0, 1]]⟩ ⟨1/100, 1/20, 3/10⟩).silenceRegions =
      specSilenceRegions 20 1 (1/100) (1/20) [1, 0, 0, 0, 1] ∧
    specSilenceRegions 20 1 (1/100) (1/20) [1, 0, 0, 0, 1] =
      [⟨1/20, 1/5⟩] :=
  ⟨by norm_num, by
    have h := (detectSilence_window_run_spec ⟨20, [[1, 0, 0, 0, 1]]⟩
      ⟨1/100, 1/20, 3/10⟩ (by norm_num)).1
    simpa [AudioBuffer.getChannelData, windowSize] using h, by
    norm_num [specSilenceRegions, windowsOf, quietRuns, List.filterMap_cons,
      runToRegion, isQuietWindow, sumSquares]⟩
